import Mathlib

/-!
# Verification of the `persistent_rope` library

A shallow embedding of `src/lib.rs`: the rope node representation
(`Node.Flat` leaves and `Node.Concat` internal nodes with cached metadata),
the `concat`/`slice`/`at`/`index_for_nth_marker` algorithms, the marker-count
bookkeeping, the bulk loader `from_chunks`, and the stack-based sequential
iterator `Values`.

Rust `HashMap<K, V>` values are modelled as association lists with distinct
keys (`alookup` models `get`); `BTreeSet<usize>` values are modelled as
strictly sorted lists of naturals.  Panics of fallible operations are
modelled with `Option` (`none` = panic).  Everything is immutable, matching
the reference-counted persistent structure of the source.
-/

namespace PersistentRope

/-- Association-list model of `HashMap::get`: the value of the first entry
whose key equals `m`. -/
def alookup {M α : Type} [DecidableEq M] : List (M × α) → M → Option α
  | [], _ => none
  | p :: rest, m => if p.1 = m then some p.2 else alookup rest m

/-- The rope node, from `enum Node<T, M>` in `src/lib.rs`: `Flat` leaves hold
element data and a local marker index; `Concat` internal nodes hold the two
children plus cached `depth`, `left_len`, `len` and per-marker
`(left_count, total_count)` summaries. -/
inductive Node (T M : Type) where
  | Flat (data : List T) (markers : List (M × List Nat))
  | Concat (depth : Nat) (left_len : Nat) (markers : List (M × Nat × Nat)) (len : Nat)
      (left : Node T M) (right : Node T M)

/-- `struct Rope<T, M>`: a shared handle to the root node. -/
structure Rope (T M : Type) where
  root : Node T M

/-- `struct Chunk<T, M>`: the bulk-load input unit (data plus local markers). -/
structure Chunk (T M : Type) where
  data : List T
  markers : List (M × List Nat)

namespace Node

variable {T M : Type} [DecidableEq M]

/-- `Node::depth`: leaves have depth 0, internal nodes return the cache. -/
def depth : Node T M → Nat
  | Flat _ _ => 0
  | Concat d _ _ _ _ _ => d

/-- `Node::len`: leaves return their data length, internal nodes the cache. -/
def len : Node T M → Nat
  | Flat data _ => data.length
  | Concat _ _ _ n _ _ => n

/-- `Node::marker_counts`: a leaf tallies the size of each marker's offset
set; an internal node projects the cached `total_count` of each marker. -/
def marker_counts : Node T M → List (M × Nat)
  | Flat _ markers => markers.map (fun p => (p.1, p.2.length))
  | Concat _ _ markers _ _ _ => markers.map (fun p => (p.1, p.2.2))

/-- The count the library reports for one marker: `marker_counts().get(&m)`
defaulting to `0` (this is the body of `Rope::marker_count`). -/
def marker_count (n : Node T M) (m : M) : Nat :=
  (alookup n.marker_counts m).getD 0

/-- One step of `counts.entry(marker).or_insert((0, 0)).1 += count` from
`Node::concat`: add `d` to the total of `m`'s entry, inserting `(0, 0)`
first if `m` is absent. -/
def bump : List (M × Nat × Nat) → M → Nat → List (M × Nat × Nat)
  | [], m, d => [(m, (0, d))]
  | p :: rest, m, d =>
    if p.1 = m then (p.1, (p.2.1, p.2.2 + d)) :: rest else p :: bump rest m d

/-- `Node::concat`: build one fresh internal node over the two (shared)
children; seed the marker summary from the left child's counts as
`(count, count)` and then fold the right child's counts into the totals. -/
def concat (left right : Node T M) : Node T M :=
  let seeded := left.marker_counts.map (fun p => (p.1, (p.2, p.2)))
  let counts := right.marker_counts.foldl (fun acc p => bump acc p.1 p.2) seeded
  Concat (max left.depth right.depth + 1) left.len counts (left.len + right.len)
    left right

/-- `Node::slice`: at a leaf, copy `data[start..stop)` and keep exactly the
marker offsets in `[start, stop)` (the source keeps them un-shifted),
dropping markers whose filtered set is empty.  At an internal node, branch on
`do_left = start < left_len` and `do_right = stop >= left_len`: both recurse
into both children and `concat`; only `do_left` recurses left with the range
unchanged; only `do_right` recurses right into `[0, stop - left_len)`.  The
source's unreachable `panic!` branch is modelled as an empty leaf. -/
def slice : Node T M → Nat → Nat → Node T M
  | Flat data markers, start, stop =>
    let dataSlice := (data.drop start).take (stop - start)
    let sliced := markers.map
      (fun p => (p.1, p.2.filter (fun i => decide (start ≤ i ∧ i < stop))))
    Flat dataSlice (sliced.filter (fun p => !p.2.isEmpty))
  | Concat _ left_len _ _ left right, start, stop =>
    if start < left_len ∧ left_len ≤ stop then
      concat (left.slice start left_len) (right.slice 0 (stop - left_len))
    else if start < left_len then
      left.slice start stop
    else if left_len ≤ stop then
      right.slice 0 (stop - left_len)
    else
      Flat [] []

/-- `Node::at`: `none` models the `panic!` on `index >= self.len()`; below
the bound, a leaf indexes its data and an internal node routes left when
`index < left_len`, else right with `index - left_len`. -/
def at_idx (n : Node T M) (index : Nat) : Option T :=
  if n.len ≤ index then none
  else
    match n with
    | Flat data _ => data.get? index
    | Concat _ left_len _ _ left right =>
      if index < left_len then left.at_idx index
      else right.at_idx (index - left_len)

/-- `Node::index_for_nth_marker`: at a leaf, the `n`-th smallest stored
offset of `marker`; at an internal node, consult the cached
`(left_count, total_count)`: recurse left when `n < left_count`, recurse
right (shifting the result by `left_len`) when `n < total_count`, otherwise
`None`. -/
def index_for_nth_marker : Node T M → M → Nat → Option Nat
  | Flat _ markers, m, n =>
    match alookup markers m with
    | none => none
    | some indices => indices.get? n
  | Concat _ left_len markers _ left right, m, n =>
    match alookup markers m with
    | none => none
    | some c =>
      if n < c.1 then left.index_for_nth_marker m n
      else if n < c.2 then
        (right.index_for_nth_marker m (n - c.1)).map (fun i => left_len + i)
      else none

/-- The element sequence a node represents: in-order flattening of the
leaves' data. -/
def toList : Node T M → List T
  | Flat data _ => data
  | Concat _ _ _ _ l r => l.toList ++ r.toList

/-- The true number of occurrences of marker `m` stored in the leaves of the
subtree (independent of the cached summaries). -/
def occurrences : Node T M → M → Nat
  | Flat _ markers, m => ((alookup markers m).getD []).length
  | Concat _ _ _ _ l r, m => l.occurrences m + r.occurrences m

/-- The absolute positions of the occurrences of marker `m` in the sequence,
in tree order: leaf offsets, with the right child's positions shifted by the
cached `left_len`. -/
def markerPositions : Node T M → M → List Nat
  | Flat _ markers, m => (alookup markers m).getD []
  | Concat _ left_len _ _ l r, m =>
    l.markerPositions m ++ (r.markerPositions m).map (fun i => left_len + i)

end Node

namespace Rope

variable {T M : Type} [DecidableEq M]

/-- `Rope::new`: one leaf with a copy of the data and no markers. -/
def new (data : List T) : Rope T M := ⟨Node.Flat data []⟩

/-- `Rope::from_chunk`: one leaf taking the chunk's data and markers. -/
def from_chunk (c : Chunk T M) : Rope T M := ⟨Node.Flat c.data c.markers⟩

def len (r : Rope T M) : Nat := r.root.len

def is_empty (r : Rope T M) : Bool := r.len == 0

def depth (r : Rope T M) : Nat := r.root.depth

def marker_counts (r : Rope T M) : List (M × Nat) := r.root.marker_counts

/-- `Rope::marker_count`: look the marker up in `marker_counts()`,
defaulting to `0` when absent. -/
def marker_count (r : Rope T M) (m : M) : Nat :=
  (alookup r.marker_counts m).getD 0

/-- `Rope::concat`. -/
def concat (left right : Rope T M) : Rope T M :=
  ⟨Node.concat left.root right.root⟩

/-- `Rope::slice`: `none` models the `panic!("bad slice indices")` guard
`start >= end || end > self.len()`. -/
def slice (r : Rope T M) (start stop : Nat) : Option (Rope T M) :=
  if stop ≤ start ∨ r.len < stop then none
  else some ⟨r.root.slice start stop⟩

def index_for_nth_marker (r : Rope T M) (m : M) (n : Nat) : Option Nat :=
  r.root.index_for_nth_marker m n

/-- The `Index` impl for `Rope` delegates to `Node::at`; `none` models the
out-of-bounds panic (`IndexError`). -/
def at_idx (r : Rope T M) (i : Nat) : Option T := r.root.at_idx i

end Rope

namespace Node

variable {T M : Type}

/-- Whether a node is an internal (`Concat`) node. -/
def isConcatB : Node T M → Bool
  | Flat _ _ => false
  | Concat _ _ _ _ _ _ => true

/-- Node count plus element count of a subtree; used as the termination
measure of the iterator. -/
def esize : Node T M → Nat
  | Flat data _ => 1 + data.length
  | Concat _ _ _ _ l r => 1 + l.esize + r.esize

end Node

/-- `struct Values`: the sequential iterator's state, an explicit stack of
(handles to) nodes whose left side has been visited, plus the iterator over
the current leaf's data. -/
structure Values (T M : Type) where
  stack : List (Node T M)
  flat_iter : List T

/-- Pending work carried by one stacked node (only its right child remains
to be visited). -/
def pendW {T M : Type} : Node T M → Nat
  | Node.Flat _ _ => 1
  | Node.Concat _ _ _ _ _ r => 1 + r.esize

/-- Total pending work of an iterator stack. -/
def stackW {T M : Type} : List (Node T M) → Nat
  | [] => 0
  | n :: rest => pendW n + stackW rest

/-- Elements still to be produced from one stacked node: its right child's
sequence (its left side has already been visited). -/
def rightList {T M : Type} : Node T M → List T
  | Node.Flat _ _ => []
  | Node.Concat _ _ _ _ _ r => r.toList

/-- Elements still to be produced from the whole stack, top first. -/
def viewStack {T M : Type} : List (Node T M) → List T
  | [] => []
  | n :: rest => rightList n ++ viewStack rest

namespace Values

variable {T M : Type}

/-- The descend-left loop shared by `Values::new` and `next`: starting at
`n`, push each internal node visited and descend into its left child until a
leaf is reached, then load the iterator over that leaf's data. -/
def descend : Node T M → List (Node T M) → Values T M
  | Node.Flat data _, stack => ⟨stack, data⟩
  | Node.Concat d ll mks ln l r, stack =>
    descend l (Node.Concat d ll mks ln l r :: stack)

/-- `Values::new`: descend left from the root with an empty stack. -/
def new (n : Node T M) : Values T M := descend n []

/-- The elements an iterator state has yet to produce. -/
def view (v : Values T M) : List T := v.flat_iter ++ viewStack v.stack

theorem descend_outM (n : Node T M) (stack : List (Node T M)) :
    (descend n stack).flat_iter.length + stackW (descend n stack).stack ≤
      n.esize + stackW stack := by
  induction n generalizing stack with
  | Flat data mks => simp [descend, Node.esize]
  | Concat d ll mks ln l r ihl ihr =>
    have h := ihl (Node.Concat d ll mks ln l r :: stack)
    simp only [descend]
    simp only [stackW, pendW, Node.esize] at h ⊢
    omega

theorem descend_stackW (n : Node T M) (stack : List (Node T M)) :
    stackW (descend n stack).stack ≤ n.esize + stackW stack := by
  have := descend_outM n stack
  omega

/-- `Values::next` (the `Iterator` impl): produce the next element of the
current leaf if any; otherwise pop the stack (empty stack means the sequence
is exhausted), descend left from the popped node's right child, and try
again (so that an empty leaf does not block progress).  A leaf on the stack
cannot happen (the source panics there); this model returns `none`. -/
def next : Values T M → Option (T × Values T M)
  | ⟨stack, x :: rest⟩ => some (x, ⟨stack, rest⟩)
  | ⟨[], []⟩ => none
  | ⟨Node.Flat _ _ :: _, []⟩ => none
  | ⟨Node.Concat _ _ _ _ _ r :: stack, []⟩ => next (descend r stack)
termination_by v => stackW v.stack
decreasing_by
  have h := descend_stackW r stack
  simp only [stackW, pendW]
  omega

/-- The termination measure of draining the iterator. -/
def outM (v : Values T M) : Nat := v.flat_iter.length + stackW v.stack

/-- Draining the iterator: the list of all elements `next` produces, in
order.  Each clause is one step of the `next` state machine (see
`out_eq_next`). -/
def out : Values T M → List T
  | ⟨stack, x :: rest⟩ => x :: out ⟨stack, rest⟩
  | ⟨[], []⟩ => []
  | ⟨Node.Flat _ _ :: _, []⟩ => []
  | ⟨Node.Concat _ _ _ _ _ r :: stack, []⟩ => out (descend r stack)
termination_by v => outM v
decreasing_by
  · simp only [outM, List.length_cons]; omega
  · have h := descend_outM r stack
    simp only [outM, stackW, pendW, List.length_cons, List.length_nil]
    omega

/-- `out` is exactly the loop that repeatedly calls `next` and collects the
produced elements. -/
theorem out_eq_next :
    ∀ (k : Nat) (v : Values T M), stackW v.stack ≤ k →
      out v = (match next v with
               | none => []
               | some xv => xv.1 :: out xv.2) := by
  intro k
  induction k with
  | zero =>
    intro v hk
    obtain ⟨stack, flat⟩ := v
    match stack, flat with
    | stack, x :: rest => rw [out, next]
    | [], [] => rw [out, next]
    | Node.Flat d mks :: rest, [] =>
      simp only [stackW, pendW] at hk; omega
    | Node.Concat d ll mks ln l r :: rest, [] =>
      simp only [stackW, pendW] at hk; omega
  | succ k ih =>
    intro v hk
    obtain ⟨stack, flat⟩ := v
    match stack, flat with
    | stack, x :: rest => rw [out, next]
    | [], [] => rw [out, next]
    | Node.Flat d mks :: rest, [] => rw [out, next]
    | Node.Concat d ll mks ln l r :: rest, [] =>
      rw [out, next]
      have hw : stackW (descend r rest).stack ≤ k := by
        have h1 := descend_stackW r rest
        simp only [stackW, pendW] at hk
        omega
      exact ih (descend r rest) hw

theorem descend_view (n : Node T M) (stack : List (Node T M)) :
    (descend n stack).view = n.toList ++ viewStack stack ∧
      (descend n stack).stack.all Node.isConcatB = stack.all Node.isConcatB := by
  induction n generalizing stack with
  | Flat data mks => simp [descend, view, Node.toList]
  | Concat d ll mks ln l r ihl ihr =>
    have h := ihl (Node.Concat d ll mks ln l r :: stack)
    simp only [descend] at h ⊢
    refine ⟨?_, ?_⟩
    · rw [h.1]
      simp [viewStack, rightList, Node.toList]
    · rw [h.2]
      simp [Node.isConcatB]

/-- Draining an iterator whose stack holds only internal nodes produces
exactly its pending elements. -/
theorem out_view :
    ∀ (k : Nat) (v : Values T M), outM v ≤ k →
      v.stack.all Node.isConcatB = true → out v = v.view := by
  intro k
  induction k with
  | zero =>
    intro v hk hc
    obtain ⟨stack, flat⟩ := v
    match stack, flat with
    | stack, x :: rest => simp only [outM, List.length_cons] at hk; omega
    | [], [] => rw [out]; simp [view, viewStack]
    | Node.Flat d mks :: rest, [] =>
      simp only [outM, stackW, pendW] at hk; omega
    | Node.Concat d ll mks ln l r :: rest, [] =>
      simp only [outM, stackW, pendW] at hk; omega
  | succ k ih =>
    intro v hk hc
    obtain ⟨stack, flat⟩ := v
    match stack, flat with
    | stack, x :: rest =>
      rw [out]
      have : out ⟨stack, rest⟩ = view ⟨stack, rest⟩ := by
        refine ih _ ?_ hc
        simp only [outM, List.length_cons] at hk ⊢
        omega
      rw [this]
      simp [view]
    | [], [] => rw [out]; simp [view, viewStack]
    | Node.Flat d mks :: rest, [] =>
      simp [Node.isConcatB] at hc
    | Node.Concat d ll mks ln l r :: rest, [] =>
      rw [out]
      simp only [List.all_cons, Bool.and_eq_true] at hc
      have hd := descend_view r rest
      have : out (descend r rest) = (descend r rest).view := by
        refine ih _ ?_ ?_
        · have h1 := descend_outM r rest
          simp only [outM, stackW, pendW, List.length_nil] at hk ⊢
          omega
        · rw [hd.2]; exact hc.2
      rw [this, hd.1]
      simp [view, viewStack, rightList]

end Values

namespace Rope

variable {T M : Type} [DecidableEq M]

/-- `r.iter().collect()`: the sequence the sequential iterator produces. -/
def iterList (r : Rope T M) : List T := Values.out (Values.new r.root)

end Rope

/-- The sequential iterator yields exactly the in-order flattening of the
rope's leaves. -/
theorem iterList_eq_toList {T M : Type} [DecidableEq M] (r : Rope T M) :
    r.iterList = r.root.toList := by
  unfold Rope.iterList Values.new
  have hd := Values.descend_view r.root []
  have hout := Values.out_view (Values.outM (Values.descend r.root []))
    (Values.descend r.root []) le_rfl
  rw [hout, hd.1]
  · simp [viewStack]
  · rw [hd.2]; simp

section AssocLemmas

variable {M α β : Type} [DecidableEq M]

theorem alookup_mem {xs : List (M × α)} {m : M} {v : α}
    (h : alookup xs m = some v) : (m, v) ∈ xs := by
  induction xs with
  | nil => simp [alookup] at h
  | cons p rest ih =>
    rw [alookup] at h
    by_cases hp : p.1 = m
    · simp only [if_pos hp, Option.some.injEq] at h
      have hpv : (m, v) = p := by
        rw [← hp, ← h]
      rw [hpv]
      exact List.mem_cons_self p rest
    · rw [if_neg hp] at h
      exact List.mem_cons_of_mem _ (ih h)

theorem alookup_eq_none {xs : List (M × α)} {m : M} :
    alookup xs m = none ↔ m ∉ xs.map Prod.fst := by
  induction xs with
  | nil => simp [alookup]
  | cons p rest ih =>
    rw [alookup]
    by_cases hp : p.1 = m
    · simp [hp]
    · rw [if_neg hp]
      simp only [List.map_cons, List.mem_cons]
      rw [ih]
      constructor
      · intro hn hc
        rcases hc with hc | hc
        · exact hp hc.symm
        · exact hn hc
      · intro hn hc
        exact hn (Or.inr hc)

theorem alookup_isSome_iff {xs : List (M × α)} {m : M} :
    (alookup xs m).isSome = true ↔ m ∈ xs.map Prod.fst := by
  cases hx : alookup xs m with
  | none =>
    simp only [Option.isSome_none, Bool.false_eq_true, false_iff]
    exact alookup_eq_none.1 hx
  | some v =>
    simp only [Option.isSome_some, true_iff]
    exact List.mem_map.2 ⟨(m, v), alookup_mem hx, rfl⟩

theorem nodup_mem_alookup {xs : List (M × α)} {m : M} {v : α}
    (hnd : (xs.map Prod.fst).Nodup) (h : (m, v) ∈ xs) : alookup xs m = some v := by
  induction xs with
  | nil => simp at h
  | cons p rest ih =>
    simp only [List.map_cons, List.nodup_cons] at hnd
    rcases List.mem_cons.1 h with h1 | h1
    · rw [← h1, alookup, if_pos rfl]
    · rw [alookup]
      have hne : p.1 ≠ m := by
        intro he
        exact hnd.1 (he ▸ (List.mem_map.2 ⟨(m, v), h1, rfl⟩))
      rw [if_neg hne]
      exact ih hnd.2 h1

theorem alookup_map_value (f : α → β) (xs : List (M × α)) (m : M) :
    alookup (xs.map (fun p => (p.1, f p.2))) m = (alookup xs m).map f := by
  induction xs with
  | nil => simp [alookup]
  | cons p rest ih =>
    simp only [List.map_cons, alookup]
    by_cases hp : p.1 = m
    · simp [hp]
    · simp [hp, ih]

end AssocLemmas

namespace Node

variable {T M : Type} [DecidableEq M]

theorem alookup_bump_self (xs : List (M × Nat × Nat)) (m : M) (d : Nat) :
    alookup (bump xs m d) m =
      some (match alookup xs m with
            | none => (0, d)
            | some c => (c.1, c.2 + d)) := by
  induction xs with
  | nil => simp [bump, alookup]
  | cons p rest ih =>
    rw [bump]
    by_cases hp : p.1 = m
    · simp [hp, alookup]
    · simp only [if_neg hp, alookup, ih, if_neg hp]

theorem alookup_bump_ne (xs : List (M × Nat × Nat)) (m m' : M) (d : Nat)
    (h : m' ≠ m) : alookup (bump xs m d) m' = alookup xs m' := by
  have hmm : ¬ m = m' := fun he => h he.symm
  induction xs with
  | nil => simp [bump, alookup, hmm]
  | cons p rest ih =>
    rw [bump]
    by_cases hp : p.1 = m
    · rw [if_pos hp]
      have hne : ¬ p.1 = m' := by rw [hp]; exact hmm
      rw [alookup, if_neg hne, alookup, if_neg hne]
    · rw [if_neg hp, alookup, alookup]
      by_cases hp' : p.1 = m'
      · rw [if_pos hp', if_pos hp']
      · rw [if_neg hp', if_neg hp', ih]

theorem bump_keys (xs : List (M × Nat × Nat)) (m : M) (d : Nat) :
    (bump xs m d).map Prod.fst =
      if m ∈ xs.map Prod.fst then xs.map Prod.fst else xs.map Prod.fst ++ [m] := by
  induction xs with
  | nil => simp [bump]
  | cons p rest ih =>
    rw [bump]
    by_cases hp : p.1 = m
    · simp [hp]
    · simp only [if_neg hp, List.map_cons, ih, List.mem_cons]
      have : ¬ m = p.1 := fun he => hp he.symm
      by_cases hm : m ∈ rest.map Prod.fst <;> simp [hm, this]

theorem bump_nodup {xs : List (M × Nat × Nat)} {m : M} {d : Nat}
    (h : (xs.map Prod.fst).Nodup) : ((bump xs m d).map Prod.fst).Nodup := by
  rw [bump_keys]
  by_cases hm : m ∈ xs.map Prod.fst
  · simpa [hm] using h
  · rw [if_neg hm]
    have hd : (xs.map Prod.fst).Disjoint [m] := by
      intro a ha hb
      rw [List.mem_singleton] at hb
      exact hm (hb ▸ ha)
    exact h.append (List.nodup_singleton m) hd

theorem alookup_foldl_bump_absent (rc : List (M × Nat))
    (acc : List (M × Nat × Nat)) (m : M) (h : m ∉ rc.map Prod.fst) :
    alookup (rc.foldl (fun a p => bump a p.1 p.2) acc) m = alookup acc m := by
  induction rc generalizing acc with
  | nil => simp
  | cons q rest ih =>
    simp only [List.map_cons, List.mem_cons] at h
    push_neg at h
    rw [List.foldl_cons, ih _ h.2, alookup_bump_ne _ _ _ _ (fun he => h.1 he)]

theorem alookup_foldl_bump (rc : List (M × Nat)) (acc : List (M × Nat × Nat))
    (m : M) (hnd : (rc.map Prod.fst).Nodup) :
    alookup (rc.foldl (fun a p => bump a p.1 p.2) acc) m =
      match alookup rc m with
      | none => alookup acc m
      | some d => some (match alookup acc m with
                        | none => (0, d)
                        | some c => (c.1, c.2 + d)) := by
  induction rc generalizing acc with
  | nil => simp [alookup]
  | cons q rest ih =>
    simp only [List.map_cons, List.nodup_cons] at hnd
    rw [List.foldl_cons]
    by_cases hq : q.1 = m
    · have habs : m ∉ rest.map Prod.fst := hq ▸ hnd.1
      rw [alookup_foldl_bump_absent _ _ _ habs]
      have h1 : alookup (q :: rest) m = some q.2 := by rw [alookup, if_pos hq]
      have h2 := alookup_bump_self acc q.1 q.2
      rw [hq] at h2
      rw [h1, hq, h2]
    · have h1 : alookup (q :: rest) m = alookup rest m := by rw [alookup, if_neg hq]
      rw [ih _ hnd.2, h1, alookup_bump_ne acc q.1 m q.2 (fun he => hq he.symm)]

theorem foldl_bump_nodup (rc : List (M × Nat)) {acc : List (M × Nat × Nat)}
    (h : (acc.map Prod.fst).Nodup) :
    ((rc.foldl (fun a p => bump a p.1 p.2) acc).map Prod.fst).Nodup := by
  induction rc generalizing acc with
  | nil => exact h
  | cons q rest ih => exact ih (bump_nodup h)

theorem foldl_bump_keys_mono (rc : List (M × Nat)) {acc : List (M × Nat × Nat)}
    {m : M} (h : m ∈ acc.map Prod.fst) :
    m ∈ (rc.foldl (fun a p => bump a p.1 p.2) acc).map Prod.fst := by
  induction rc generalizing acc with
  | nil => exact h
  | cons q rest ih =>
    refine ih ?_
    rw [bump_keys]
    by_cases hq : q.1 ∈ acc.map Prod.fst
    · simpa [hq] using h
    · simp [hq, h]

theorem foldl_bump_keys_of_mem (rc : List (M × Nat)) (acc : List (M × Nat × Nat))
    {m : M} (h : m ∈ rc.map Prod.fst) :
    m ∈ (rc.foldl (fun a p => bump a p.1 p.2) acc).map Prod.fst := by
  induction rc generalizing acc with
  | nil => simp at h
  | cons q rest ih =>
    simp only [List.map_cons, List.mem_cons] at h
    rcases h with h | h
    · refine foldl_bump_keys_mono rest ?_
      rw [bump_keys]
      by_cases hq : q.1 ∈ acc.map Prod.fst
      · rw [if_pos hq]
        exact h ▸ hq
      · rw [if_neg hq]
        refine List.mem_append.2 (Or.inr ?_)
        simp [h]
    · exact ih _ h

theorem alookup_seeded (xs : List (M × Nat)) (m : M) :
    alookup (xs.map (fun p => (p.1, (p.2, p.2)))) m =
      (alookup xs m).map (fun c => (c, c)) := by
  induction xs with
  | nil => rfl
  | cons p rest ih =>
    simp only [List.map_cons, alookup]
    by_cases hp : p.1 = m
    · simp [hp]
    · simp [hp, ih]

theorem alookup_totals (xs : List (M × Nat × Nat)) (m : M) :
    alookup (xs.map (fun p => (p.1, p.2.2))) m =
      (alookup xs m).map (fun c => c.2) := by
  induction xs with
  | nil => rfl
  | cons p rest ih =>
    simp only [List.map_cons, alookup]
    by_cases hp : p.1 = m
    · simp [hp]
    · simp [hp, ih]

theorem alookup_lengths (xs : List (M × List Nat)) (m : M) :
    alookup (xs.map (fun p => (p.1, p.2.length))) m =
      (alookup xs m).map List.length := by
  induction xs with
  | nil => rfl
  | cons p rest ih =>
    simp only [List.map_cons, alookup]
    by_cases hp : p.1 = m
    · simp [hp]
    · simp [hp, ih]

/-- The marker summary map `Node::concat` builds for the new internal node. -/
def mergedCounts (l r : Node T M) : List (M × Nat × Nat) :=
  r.marker_counts.foldl (fun acc p => bump acc p.1 p.2)
    (l.marker_counts.map (fun p => (p.1, (p.2, p.2))))

theorem concat_eq (l r : Node T M) :
    Node.concat l r =
      Concat (max l.depth r.depth + 1) l.len (mergedCounts l r) (l.len + r.len)
        l r := rfl

theorem mergedCounts_lookup (l r : Node T M) (m : M)
    (hnd : (r.marker_counts.map Prod.fst).Nodup) :
    alookup (mergedCounts l r) m =
      match alookup l.marker_counts m, alookup r.marker_counts m with
      | none, none => none
      | some c, none => some (c, c)
      | none, some d => some (0, d)
      | some c, some d => some (c, c + d) := by
  unfold mergedCounts
  rw [alookup_foldl_bump _ _ _ hnd, alookup_seeded]
  cases alookup l.marker_counts m <;> cases alookup r.marker_counts m <;> rfl

theorem marker_counts_concat (l r : Node T M) :
    (Node.concat l r).marker_counts =
      (mergedCounts l r).map (fun p => (p.1, p.2.2)) := rfl

/-- The cached summaries make `marker_count` additive under `concat`. -/
theorem marker_count_concat (l r : Node T M) (m : M)
    (hnd : (r.marker_counts.map Prod.fst).Nodup) :
    (Node.concat l r).marker_count m = l.marker_count m + r.marker_count m := by
  unfold marker_count
  rw [marker_counts_concat, alookup_totals, mergedCounts_lookup l r m hnd]
  cases alookup l.marker_counts m <;> cases alookup r.marker_counts m <;> simp

end Node

/-- Whether an association list has pairwise distinct keys (always true of a
Rust `HashMap`). -/
def keysNodupB {M α : Type} [DecidableEq M] (xs : List (M × α)) : Bool :=
  decide ((xs.map Prod.fst).Nodup)

namespace Node

variable {T M : Type} [DecidableEq M]

/-- The cached-metadata invariants of every internal node (the §3 data-model
invariants of the spec): `len == left.len() + right.len()`,
`left_len == left.len()`, `depth == max(left.depth(), right.depth()) + 1`,
and every marker `m` present in the summary satisfies
`left_count == left.marker_count(m)` and
`total_count == left_count + right.marker_count(m)`. -/
def cacheWF : Node T M → Bool
  | Flat _ _ => true
  | Concat d ll mk ln l r =>
    decide (ln = l.len + r.len) && decide (ll = l.len) &&
    decide (d = max l.depth r.depth + 1) &&
    mk.all (fun p =>
      decide (p.2.1 = l.marker_count p.1 ∧ p.2.2 = p.2.1 + r.marker_count p.1)) &&
    l.cacheWF && r.cacheWF

/-- Every marker map in the tree has distinct keys (a `HashMap` property). -/
def keysOK : Node T M → Bool
  | Flat _ mk => keysNodupB mk
  | Concat _ _ mk _ l r => keysNodupB mk && l.keysOK && r.keysOK

/-- Every marker that appears in a child's counts is present in the parent's
cached summary (the summary accounts for the whole subtree). -/
def countsComplete : Node T M → Bool
  | Flat _ _ => true
  | Concat _ _ mk _ l r =>
    l.marker_counts.all (fun p => (alookup mk p.1).isSome) &&
    r.marker_counts.all (fun p => (alookup mk p.1).isSome) &&
    l.countsComplete && r.countsComplete

/-- Every marker entry stored anywhere in the tree has a positive count
(leaf offset sets are non-empty, cached totals are positive). -/
def posCounts : Node T M → Bool
  | Flat _ mk => mk.all (fun p => !p.2.isEmpty)
  | Concat _ _ mk _ l r =>
    mk.all (fun p => decide (0 < p.2.2)) && l.posCounts && r.posCounts

/-- The leaf invariant of §3 of the spec: every marker offset set is
non-empty, strictly sorted, and within the leaf's data range. -/
def leafWF : Node T M → Bool
  | Flat data mk =>
    mk.all (fun p =>
      !p.2.isEmpty && decide (p.2.Pairwise (· < ·)) &&
      p.2.all (fun i => decide (i < data.length)))
  | Concat _ _ _ _ l r => l.leafWF && r.leafWF

/-- The invariants every rope reachable through the public API satisfies. -/
def invR (n : Node T M) : Bool :=
  n.cacheWF && n.keysOK && n.countsComplete && n.posCounts

/-- A fully well-formed rope: the reachability invariants plus the leaf
marker invariant of §3 (which `slice` does not re-establish, since it keeps
leaf offsets un-shifted). -/
def wf (n : Node T M) : Bool := n.invR && n.leafWF

theorem invR_parts {n : Node T M} (h : n.invR = true) :
    n.cacheWF = true ∧ n.keysOK = true ∧ n.countsComplete = true ∧
      n.posCounts = true := by
  simp only [invR, Bool.and_eq_true] at h
  tauto

theorem invR_of_parts {n : Node T M} (h1 : n.cacheWF = true) (h2 : n.keysOK = true)
    (h3 : n.countsComplete = true) (h4 : n.posCounts = true) : n.invR = true := by
  simp only [invR, Bool.and_eq_true]
  tauto

theorem invR_children {d ll : Nat} {mk : List (M × Nat × Nat)} {ln : Nat}
    {l r : Node T M} (h : (Concat d ll mk ln l r).invR = true) :
    l.invR = true ∧ r.invR = true := by
  simp only [invR, cacheWF, keysOK, countsComplete, posCounts,
    Bool.and_eq_true] at h ⊢
  tauto

theorem marker_counts_nodup {n : Node T M} (h : n.keysOK = true) :
    (n.marker_counts.map Prod.fst).Nodup := by
  cases n with
  | Flat data mk =>
    simp only [keysOK, keysNodupB, decide_eq_true_eq] at h
    simpa [marker_counts, List.map_map, Function.comp] using h
  | Concat d ll mk ln l r =>
    simp only [keysOK, keysNodupB, Bool.and_eq_true, decide_eq_true_eq] at h
    simpa [marker_counts, List.map_map, Function.comp] using h.1.1

theorem marker_counts_pos {n : Node T M} (h : n.posCounts = true) :
    ∀ p ∈ n.marker_counts, 0 < p.2 := by
  cases n with
  | Flat data mk =>
    simp only [posCounts, List.all_eq_true] at h
    intro p hp
    simp only [marker_counts, List.mem_map] at hp
    obtain ⟨q, hq, hqp⟩ := hp
    have := h q hq
    rw [← hqp]
    simpa [List.isEmpty_iff, List.length_pos] using this
  | Concat d ll mk ln l r =>
    simp only [posCounts, Bool.and_eq_true, List.all_eq_true] at h
    intro p hp
    simp only [marker_counts, List.mem_map] at hp
    obtain ⟨q, hq, hqp⟩ := hp
    have := h.1.1 q hq
    rw [← hqp]
    simpa using this

theorem mergedCounts_nodup {l r : Node T M} (hkl : l.keysOK = true) :
    ((mergedCounts l r).map Prod.fst).Nodup := by
  unfold mergedCounts
  refine foldl_bump_nodup _ ?_
  simpa [List.map_map, Function.comp] using marker_counts_nodup hkl

theorem keysOK_concat {l r : Node T M} (hl : l.keysOK = true)
    (hr : r.keysOK = true) : (Node.concat l r).keysOK = true := by
  rw [concat_eq]
  simp only [keysOK, Bool.and_eq_true]
  refine ⟨⟨?_, hl⟩, hr⟩
  unfold keysNodupB
  rw [decide_eq_true_eq]
  exact mergedCounts_nodup hl

theorem cacheWF_concat {l r : Node T M} (hl : l.cacheWF = true)
    (hr : r.cacheWF = true) (hkl : l.keysOK = true) (hkr : r.keysOK = true) :
    (Node.concat l r).cacheWF = true := by
  rw [concat_eq]
  simp only [cacheWF, Bool.and_eq_true, decide_eq_true_eq]
  refine ⟨⟨⟨⟨⟨trivial, trivial⟩, trivial⟩, ?_⟩, hl⟩, hr⟩
  rw [List.all_eq_true]
  intro p hp
  rw [decide_eq_true_eq]
  have hlk := nodup_mem_alookup (mergedCounts_nodup hkl) hp
  rw [mergedCounts_lookup l r p.1 (marker_counts_nodup hkr)] at hlk
  unfold marker_count
  cases hL : alookup l.marker_counts p.1 <;>
    cases hR : alookup r.marker_counts p.1 <;> rw [hL, hR] at hlk
  · exact absurd hlk (by simp)
  · simp only [Option.some.injEq] at hlk
    rw [← hlk]
    simp
  · simp only [Option.some.injEq] at hlk
    rw [← hlk]
    simp
  · simp only [Option.some.injEq] at hlk
    rw [← hlk]
    simp

theorem countsComplete_concat {l r : Node T M} (hl : l.countsComplete = true)
    (hr : r.countsComplete = true) :
    (Node.concat l r).countsComplete = true := by
  rw [concat_eq]
  simp only [countsComplete, Bool.and_eq_true]
  refine ⟨⟨⟨?_, ?_⟩, hl⟩, hr⟩
  · rw [List.all_eq_true]
    intro p hp
    rw [alookup_isSome_iff]
    unfold mergedCounts
    refine foldl_bump_keys_mono _ ?_
    have : p.1 ∈ l.marker_counts.map Prod.fst := List.mem_map.2 ⟨p, hp, rfl⟩
    simpa [List.map_map, Function.comp] using this
  · rw [List.all_eq_true]
    intro p hp
    rw [alookup_isSome_iff]
    unfold mergedCounts
    exact foldl_bump_keys_of_mem _ _ (List.mem_map.2 ⟨p, hp, rfl⟩)

theorem posCounts_concat {l r : Node T M} (hl : l.posCounts = true)
    (hr : r.posCounts = true) (hkl : l.keysOK = true) (hkr : r.keysOK = true) :
    (Node.concat l r).posCounts = true := by
  rw [concat_eq]
  simp only [posCounts, Bool.and_eq_true]
  refine ⟨⟨?_, hl⟩, hr⟩
  rw [List.all_eq_true]
  intro p hp
  rw [decide_eq_true_eq]
  have hlk := nodup_mem_alookup (mergedCounts_nodup hkl) hp
  rw [mergedCounts_lookup l r p.1 (marker_counts_nodup hkr)] at hlk
  cases hL : alookup l.marker_counts p.1 <;>
    cases hR : alookup r.marker_counts p.1 <;> rw [hL, hR] at hlk
  · exact absurd hlk (by simp)
  · simp only [Option.some.injEq] at hlk
    have := marker_counts_pos hr _ (alookup_mem hR)
    rw [← hlk]
    simpa using this
  · simp only [Option.some.injEq] at hlk
    have := marker_counts_pos hl _ (alookup_mem hL)
    rw [← hlk]
    simpa using this
  · simp only [Option.some.injEq] at hlk
    have := marker_counts_pos hr _ (alookup_mem hR)
    rw [← hlk]
    simp at this ⊢
    omega

theorem invR_concat {l r : Node T M} (hl : l.invR = true) (hr : r.invR = true) :
    (Node.concat l r).invR = true := by
  obtain ⟨hc1, hk1, hm1, hp1⟩ := invR_parts hl
  obtain ⟨hc2, hk2, hm2, hp2⟩ := invR_parts hr
  exact invR_of_parts (cacheWF_concat hc1 hc2 hk1 hk2) (keysOK_concat hk1 hk2)
    (countsComplete_concat hm1 hm2) (posCounts_concat hp1 hp2 hk1 hk2)

theorem keys_filter_nodup {α : Type} {xs : List (M × α)} (p : M × α → Bool)
    (h : (xs.map Prod.fst).Nodup) : (((xs.filter p).map Prod.fst)).Nodup :=
  List.Nodup.sublist (List.Sublist.map Prod.fst (List.filter_sublist _)) h

theorem invR_flat_slice (data : List T) (mk : List (M × List Nat))
    (h : (Flat data mk : Node T M).invR = true) (s e : Nat) :
    ((Flat data mk : Node T M).slice s e).invR = true := by
  obtain ⟨hc, hk, hm, hp⟩ := invR_parts h
  rw [slice]
  refine invR_of_parts rfl ?_ rfl ?_
  · simp only [keysOK, keysNodupB, decide_eq_true_eq] at hk ⊢
    refine keys_filter_nodup _ ?_
    simpa [List.map_map, Function.comp] using hk
  · simp only [posCounts, List.all_eq_true]
    intro p hp'
    exact (List.mem_filter.1 hp').2

theorem invR_slice {n : Node T M} (h : n.invR = true) :
    ∀ s e, (n.slice s e).invR = true := by
  induction n with
  | Flat data mk => exact invR_flat_slice data mk h
  | Concat d ll mk ln l r ihl ihr =>
    intro s e
    obtain ⟨hl, hr⟩ := invR_children h
    rw [slice]
    by_cases h1 : s < ll ∧ ll ≤ e
    · rw [if_pos h1]
      exact invR_concat (ihl hl s ll) (ihr hr 0 (e - ll))
    · rw [if_neg h1]
      by_cases h2 : s < ll
      · rw [if_pos h2]
        exact ihl hl s e
      · rw [if_neg h2]
        by_cases h3 : ll ≤ e
        · rw [if_pos h3]
          exact ihr hr 0 (e - ll)
        · rw [if_neg h3]
          exact invR_of_parts rfl rfl rfl rfl

end Node

namespace Rope

variable {T M : Type} [DecidableEq M]

/-- The inner `while` loop of `Rope::from_chunks`: while the stack holds at
least two ropes and the two most recently pushed (the head of this list is
the top of the stack) have equal depth, pop both and push their
concatenation. -/
def merge_stack : List (Rope T M) → List (Rope T M)
  | r :: l :: rest =>
    if r.depth = l.depth then merge_stack (Rope.concat l r :: rest)
    else r :: l :: rest
  | s => s
termination_by s => s.length
decreasing_by simp

/-- The chunk-consuming loop of `Rope::from_chunks`: push each chunk's leaf
rope, then run the equal-depth merge loop. -/
def from_chunks_loop : List (Chunk T M) → List (Rope T M) → List (Rope T M)
  | [], stack => stack
  | c :: rest, stack => from_chunks_loop rest (merge_stack (from_chunk c :: stack))

/-- `Rope::from_chunks`, with the finite successful chunk stream modelled as
the list of chunks the loader yields before the end signal.  `none` models
the `stack.pop().unwrap()` panic on an empty stream.  After input
exhaustion, the remaining stack is folded bottom-to-top with `concat`
(`stack.into_iter().rev().fold(init, |right, left| concat(&left, &right))`). -/
def from_chunks (chunks : List (Chunk T M)) : Option (Rope T M) :=
  match from_chunks_loop chunks [] with
  | [] => none
  | init :: rest =>
    some (rest.foldl (fun right left => Rope.concat left right) init)

end Rope

/-- Properties every `Chunk` built through the chunk API has: distinct
marker keys (it is a `HashMap`) and non-empty offset sets (`mark_at` only
ever inserts offsets). -/
def chunkOK {T M : Type} [DecidableEq M] (c : Chunk T M) : Bool :=
  keysNodupB c.markers && c.markers.all (fun p => !p.2.isEmpty)

/-- The per-chunk occurrence count of one marker. -/
def Chunk.count {T M : Type} [DecidableEq M] (c : Chunk T M) (m : M) : Nat :=
  ((alookup c.markers m).getD []).length

/-- Rope roots reachable through the public API: construction from plain
data (`new`), from a chunk, `concat`, `slice`, and the bulk loader. -/
inductive Reachable {T M : Type} [DecidableEq M] : Node T M → Prop where
  | new_ (data : List T) : Reachable (Node.Flat data [])
  | from_chunk (c : Chunk T M) (h : chunkOK c = true) :
      Reachable (Node.Flat c.data c.markers)
  | concat_ {l r : Node T M} : Reachable l → Reachable r →
      Reachable (Node.concat l r)
  | slice_ {n : Node T M} (s e : Nat) : Reachable n → Reachable (n.slice s e)
  | from_chunks_ {cs : List (Chunk T M)} {r : Rope T M}
      (h : ∀ c ∈ cs, chunkOK c = true) (he : Rope.from_chunks cs = some r) :
      Reachable r.root

section Loader

variable {T M : Type} [DecidableEq M]

/-- Flattened contents of a loader stack, bottom of the stack first (the
head of the list is the top of the stack, i.e. the most recent chunk). -/
def stackList : List (Rope T M) → List T
  | [] => []
  | r :: rest => stackList rest ++ r.root.toList

/-- Total marker count of a loader stack. -/
def stackCount (st : List (Rope T M)) (m : M) : Nat :=
  (st.map (fun r => r.root.marker_count m)).sum

/-- All the ropes on a loader stack satisfy the reachability invariants. -/
def allInvR (st : List (Rope T M)) : Bool := st.all (fun r => r.root.invR)

theorem invR_flat_of_chunkOK {data : List T} {mk : List (M × List Nat)}
    (h : keysNodupB mk = true) (h2 : mk.all (fun p => !p.2.isEmpty) = true) :
    (Node.Flat data mk).invR = true := by
  refine Node.invR_of_parts rfl ?_ rfl ?_
  · simpa [Node.keysOK] using h
  · simpa [Node.posCounts] using h2

theorem invR_new (data : List T) : (Node.Flat data ([] : List (M × List Nat))).invR = true := by
  refine invR_flat_of_chunkOK ?_ ?_ <;> simp [keysNodupB]

theorem marker_count_flat (data : List T) (mk : List (M × List Nat)) (m : M) :
    (Node.Flat data mk).marker_count m = ((alookup mk m).getD []).length := by
  unfold Node.marker_count
  have : (Node.Flat data mk : Node T M).marker_counts =
      mk.map (fun p => (p.1, p.2.length)) := rfl
  rw [this, Node.alookup_lengths]
  cases alookup mk m <;> rfl

theorem concat_root_toList (l r : Rope T M) :
    (Rope.concat l r).root.toList = l.root.toList ++ r.root.toList := rfl

theorem concat_marker_count (l r : Rope T M) (m : M) (hr : r.root.invR = true) :
    (Rope.concat l r).root.marker_count m =
      l.root.marker_count m + r.root.marker_count m :=
  Node.marker_count_concat l.root r.root m
    (Node.marker_counts_nodup (Node.invR_parts hr).2.1)

theorem merge_stack_spec :
    ∀ s : List (Rope T M), allInvR s = true →
      allInvR (Rope.merge_stack s) = true ∧
      stackList (Rope.merge_stack s) = stackList s ∧
      (∀ m, stackCount (Rope.merge_stack s) m = stackCount s m) ∧
      (Rope.merge_stack s = [] → s = []) := by
  intro s
  induction s using Rope.merge_stack.induct with
  | case1 r l rest hd ih =>
    intro h
    rw [Rope.merge_stack, if_pos hd]
    simp only [allInvR, List.all_cons, Bool.and_eq_true] at h
    obtain ⟨hr, hl, hrest⟩ := h
    have hmerged : allInvR (Rope.concat l r :: rest) = true := by
      simp only [allInvR, List.all_cons, Bool.and_eq_true]
      exact ⟨Node.invR_concat hl hr, hrest⟩
    obtain ⟨i1, i2, i3, i4⟩ := ih hmerged
    refine ⟨i1, ?_, ?_, ?_⟩
    · rw [i2]
      simp only [stackList, concat_root_toList, List.append_assoc]
    · intro m
      rw [i3 m]
      simp only [stackCount, List.map_cons, List.sum_cons,
        concat_marker_count l r m hr]
      omega
    · intro hc
      exact absurd (i4 hc) (by simp)
  | case2 r l rest hd =>
    intro h
    rw [Rope.merge_stack, if_neg hd]
    exact ⟨h, rfl, fun m => rfl, fun hc => hc⟩
  | case3 s hs =>
    intro h
    have hms : Rope.merge_stack s = s := by
      rw [Rope.merge_stack.eq_def]
      match s, hs with
      | [], _ => rfl
      | [r], _ => rfl
      | r :: l :: rest, hs => exact absurd rfl (hs r l rest)
    rw [hms]
    exact ⟨h, rfl, fun m => rfl, fun hc => hc⟩

theorem from_chunks_loop_spec :
    ∀ (cs : List (Chunk T M)) (st : List (Rope T M)), allInvR st = true →
      (∀ c ∈ cs, chunkOK c = true) →
      allInvR (Rope.from_chunks_loop cs st) = true ∧
      stackList (Rope.from_chunks_loop cs st) =
        stackList st ++ (cs.map Chunk.data).join ∧
      (∀ m, stackCount (Rope.from_chunks_loop cs st) m =
        stackCount st m + (cs.map (fun c => c.count m)).sum) ∧
      (Rope.from_chunks_loop cs st = [] → st = [] ∧ cs = []) := by
  intro cs
  induction cs with
  | nil =>
    intro st h hok
    refine ⟨h, ?_, ?_, ?_⟩
    · simp [Rope.from_chunks_loop]
    · intro m
      simp [Rope.from_chunks_loop]
    · intro hc
      exact ⟨hc, rfl⟩
  | cons c rest ih =>
    intro st h hok
    have hcok : chunkOK c = true := hok c (by simp)
    have hrok : ∀ c' ∈ rest, chunkOK c' = true := fun c' hc' =>
      hok c' (by simp [hc'])
    have hpush : allInvR (Rope.from_chunk c :: st) = true := by
      simp only [allInvR, List.all_cons, Bool.and_eq_true]
      constructor
      · simp only [chunkOK, Bool.and_eq_true] at hcok
        exact invR_flat_of_chunkOK hcok.1 hcok.2
      · exact h
    obtain ⟨m1, m2, m3, m4⟩ := merge_stack_spec _ hpush
    obtain ⟨i1, i2, i3, i4⟩ :=
      ih (Rope.merge_stack (Rope.from_chunk c :: st)) m1 hrok
    rw [Rope.from_chunks_loop]
    refine ⟨i1, ?_, ?_, ?_⟩
    · rw [i2, m2]
      simp only [stackList, List.map_cons, List.join, Rope.from_chunk]
      rw [List.append_assoc]
      rfl
    · intro m
      rw [i3 m, m3 m]
      simp only [stackCount, List.map_cons, List.sum_cons, Rope.from_chunk]
      rw [marker_count_flat]
      unfold Chunk.count
      omega
    · intro hc
      obtain ⟨hm, _⟩ := i4 hc
      exact absurd (m4 hm) (by simp)

theorem fold_concat_spec :
    ∀ (rest : List (Rope T M)) (init : Rope T M),
      allInvR (init :: rest) = true →
      (rest.foldl (fun right left => Rope.concat left right) init).root.invR
          = true ∧
      (rest.foldl (fun right left => Rope.concat left right) init).root.toList
          = stackList (init :: rest) ∧
      ∀ m,
        (rest.foldl (fun right left =>
          Rope.concat left right) init).root.marker_count m
            = stackCount (init :: rest) m := by
  intro rest
  induction rest with
  | nil =>
    intro init h
    simp only [allInvR, List.all_cons, List.all_nil, Bool.and_eq_true] at h
    refine ⟨h.1, ?_, ?_⟩
    · simp [stackList]
    · intro m
      simp [stackCount]
  | cons l rest ih =>
    intro init h
    simp only [allInvR, List.all_cons, Bool.and_eq_true] at h
    obtain ⟨hinit, hl, hrest⟩ := h
    have hconc : allInvR (Rope.concat l init :: rest) = true := by
      simp only [allInvR, List.all_cons, Bool.and_eq_true]
      exact ⟨Node.invR_concat hl hinit, hrest⟩
    obtain ⟨f1, f2, f3⟩ := ih (Rope.concat l init) hconc
    rw [List.foldl_cons]
    refine ⟨f1, ?_, ?_⟩
    · rw [f2]
      simp only [stackList, concat_root_toList, List.append_assoc]
    · intro m
      rw [f3 m]
      simp only [stackCount, List.map_cons, List.sum_cons]
      rw [concat_marker_count l init m hinit]
      omega

/-- Everything the bulk loader guarantees on a non-empty well-formed chunk
stream: it succeeds, the result satisfies the reachability invariants, its
flattening is the concatenation of the chunks' data in yield order, and its
count of each marker is the sum of the per-chunk occurrence counts. -/
theorem from_chunks_spec (cs : List (Chunk T M)) (hne : cs ≠ [])
    (hok : ∀ c ∈ cs, chunkOK c = true) :
    ∃ r, Rope.from_chunks cs = some r ∧ r.root.invR = true ∧
      r.root.toList = (cs.map Chunk.data).join ∧
      ∀ m, r.root.marker_count m = (cs.map (fun c => c.count m)).sum := by
  obtain ⟨l1, l2, l3, l4⟩ := from_chunks_loop_spec cs [] rfl hok
  cases hres : Rope.from_chunks_loop cs ([] : List (Rope T M)) with
  | nil => exact absurd (l4 hres).2 hne
  | cons init rest =>
    rw [hres] at l1 l2 l3
    obtain ⟨f1, f2, f3⟩ := fold_concat_spec rest init l1
    refine ⟨_, ?_, f1, ?_, ?_⟩
    · unfold Rope.from_chunks
      rw [hres]
    · rw [f2, l2]
      simp [stackList]
    · intro m
      rw [f3 m, l3 m]
      simp [stackCount]

/-- Every rope reachable through the public API satisfies the reachability
invariants (cached metadata, distinct marker keys, complete and positive
cached counts). -/
theorem reachable_invR {n : Node T M} (h : Reachable n) : n.invR = true := by
  induction h with
  | new_ data => exact invR_new data
  | from_chunk c hc =>
    simp only [chunkOK, Bool.and_eq_true] at hc
    exact invR_flat_of_chunkOK hc.1 hc.2
  | concat_ hl hr ihl ihr => exact Node.invR_concat ihl ihr
  | slice_ s e hn ihn => exact Node.invR_slice ihn s e
  | @from_chunks_ cs r hok he =>
    by_cases hne : cs = []
    · rw [hne] at he
      exact absurd he (by simp [Rope.from_chunks, Rope.from_chunks_loop])
    · obtain ⟨r', he', hinv, _, _⟩ := from_chunks_spec cs hne hok
      rw [he] at he'
      cases he'
      exact hinv

end Loader

namespace Node

variable {T M : Type} [DecidableEq M]

theorem cacheWF_parts {d ll : Nat} {mk : List (M × Nat × Nat)} {ln : Nat}
    {l r : Node T M} (h : (Concat d ll mk ln l r).cacheWF = true) :
    ln = l.len + r.len ∧ ll = l.len ∧ d = max l.depth r.depth + 1 ∧
    (∀ p ∈ mk, p.2.1 = l.marker_count p.1 ∧
      p.2.2 = p.2.1 + r.marker_count p.1) ∧
    l.cacheWF = true ∧ r.cacheWF = true := by
  simp only [cacheWF, Bool.and_eq_true, decide_eq_true_eq, List.all_eq_true] at h
  tauto

theorem countsComplete_parts {d ll : Nat} {mk : List (M × Nat × Nat)} {ln : Nat}
    {l r : Node T M} (h : (Concat d ll mk ln l r).countsComplete = true) :
    (∀ p ∈ l.marker_counts, (alookup mk p.1).isSome = true) ∧
    (∀ p ∈ r.marker_counts, (alookup mk p.1).isSome = true) ∧
    l.countsComplete = true ∧ r.countsComplete = true := by
  simp only [countsComplete, Bool.and_eq_true, List.all_eq_true] at h
  tauto

theorem wf_parts {n : Node T M} (h : n.wf = true) :
    n.invR = true ∧ n.leafWF = true := by
  simp only [wf, Bool.and_eq_true] at h
  exact h

theorem leafWF_flat {data : List T} {mk : List (M × List Nat)}
    (h : (Flat data mk : Node T M).leafWF = true) :
    ∀ p ∈ mk, p.2 ≠ [] ∧ p.2.Pairwise (· < ·) ∧ ∀ i ∈ p.2, i < data.length := by
  simp only [leafWF, List.all_eq_true, Bool.and_eq_true, decide_eq_true_eq,
    Bool.not_eq_true'] at h
  intro p hp
  obtain ⟨⟨h1, h2⟩, h3⟩ := h p hp
  exact ⟨by simpa using h1, h2, h3⟩

theorem wf_children {d ll : Nat} {mk : List (M × Nat × Nat)} {ln : Nat}
    {l r : Node T M} (h : (Concat d ll mk ln l r).wf = true) :
    l.wf = true ∧ r.wf = true := by
  obtain ⟨hi, hl⟩ := wf_parts h
  obtain ⟨hil, hir⟩ := invR_children hi
  simp only [leafWF, Bool.and_eq_true] at hl
  exact ⟨by simp [wf, hil, hl.1], by simp [wf, hir, hl.2]⟩

theorem len_toList {n : Node T M} (h : n.cacheWF = true) :
    n.toList.length = n.len := by
  induction n with
  | Flat data mk => simp [toList, len]
  | Concat d ll mk ln l r ihl ihr =>
    obtain ⟨h1, _, _, _, h5, h6⟩ := cacheWF_parts h
    simp only [toList, len, List.length_append, ihl h5, ihr h6, h1]

theorem count_zero_of_cache_none {nd : Node T M} {mk : List (M × Nat × Nat)}
    {m : M} (g : ∀ p ∈ nd.marker_counts, (alookup mk p.1).isSome = true)
    (hk : alookup mk m = none) : nd.marker_count m = 0 := by
  unfold marker_count
  cases hx : alookup nd.marker_counts m with
  | none => rfl
  | some c =>
    have := g _ (alookup_mem hx)
    rw [hk] at this
    simp at this

theorem marker_count_concat_node {d ll : Nat} {mk : List (M × Nat × Nat)}
    {ln : Nat} {l r : Node T M} (m : M) :
    (Concat d ll mk ln l r).marker_count m =
      ((alookup mk m).map (fun c => c.2)).getD 0 := by
  unfold marker_count
  rw [show (Concat d ll mk ln l r).marker_counts =
    mk.map (fun p => (p.1, p.2.2)) from rfl, alookup_totals]

/-- Under the cache invariants, the marker counts stored in the summaries
are exactly the lengths of the occurrence-position lists. -/
theorem markerPositions_length {n : Node T M} (hc : n.cacheWF = true)
    (hm : n.countsComplete = true) (m : M) :
    (n.markerPositions m).length = n.marker_count m := by
  induction n with
  | Flat data mk =>
    rw [marker_count_flat]
    rfl
  | Concat d ll mk ln l r ihl ihr =>
    obtain ⟨h1, h2, h3, h4, h5, h6⟩ := cacheWF_parts hc
    obtain ⟨g1, g2, g3, g4⟩ := countsComplete_parts hm
    rw [marker_count_concat_node m]
    simp only [markerPositions, List.length_append, List.length_map]
    cases hk : alookup mk m with
    | none =>
      have hl0 := count_zero_of_cache_none g1 hk
      have hr0 := count_zero_of_cache_none g2 hk
      rw [ihl h5 g3, ihr h6 g4, hl0, hr0]
      rfl
    | some c =>
      obtain ⟨hc1, hc2⟩ := h4 _ (alookup_mem hk)
      simp only at hc1 hc2
      rw [ihl h5 g3, ihr h6 g4]
      simp only [Option.map_some', Option.getD_some]
      omega

theorem markerPositions_bounded {n : Node T M} (hw : n.wf = true) (m : M) :
    ∀ p ∈ n.markerPositions m, p < n.len := by
  induction n with
  | Flat data mk =>
    intro p hp
    simp only [markerPositions] at hp
    cases hx : alookup mk m with
    | none => rw [hx] at hp; simp at hp
    | some s =>
      rw [hx] at hp
      simp only [Option.getD_some] at hp
      have := leafWF_flat (wf_parts hw).2 _ (alookup_mem hx)
      exact this.2.2 p hp
  | Concat d ll mk ln l r ihl ihr =>
    obtain ⟨hwl, hwr⟩ := wf_children hw
    obtain ⟨h1, h2, _, _, _, _⟩ :=
      cacheWF_parts ((invR_parts (wf_parts hw).1).1)
    intro p hp
    simp only [markerPositions, List.mem_append, List.mem_map] at hp
    simp only [len]
    rcases hp with hp | ⟨q, hq, hqp⟩
    · have := ihl hwl p hp
      omega
    · have := ihr hwr q hq
      omega

/-- Under the cache and completeness invariants, `marker_count` reports the
true number of occurrences stored in the leaves. -/
theorem marker_count_eq_occurrences {n : Node T M} (hc : n.cacheWF = true)
    (hm : n.countsComplete = true) (m : M) :
    n.marker_count m = n.occurrences m := by
  induction n with
  | Flat data mk =>
    rw [marker_count_flat]
    rfl
  | Concat d ll mk ln l r ihl ihr =>
    obtain ⟨h1, h2, h3, h4, h5, h6⟩ := cacheWF_parts hc
    obtain ⟨g1, g2, g3, g4⟩ := countsComplete_parts hm
    rw [marker_count_concat_node m]
    show _ = l.occurrences m + r.occurrences m
    cases hk : alookup mk m with
    | none =>
      have hl0 := count_zero_of_cache_none g1 hk
      have hr0 := count_zero_of_cache_none g2 hk
      rw [← ihl h5 g3, ← ihr h6 g4, hl0, hr0]
      rfl
    | some c =>
      obtain ⟨hc1, hc2⟩ := h4 _ (alookup_mem hk)
      simp only at hc1 hc2
      rw [← ihl h5 g3, ← ihr h6 g4]
      simp only [Option.map_some', Option.getD_some]
      omega

/-- The heart of C7: under the full invariants, `index_for_nth_marker m n`
is exactly the `n`-th entry of the list of absolute occurrence positions. -/
theorem index_for_nth_marker_eq_get {n : Node T M} (hw : n.wf = true) (m : M) :
    ∀ k, n.index_for_nth_marker m k = (n.markerPositions m).get? k := by
  induction n with
  | Flat data mk =>
    intro k
    rw [index_for_nth_marker]
    cases hx : alookup mk m with
    | none => simp [markerPositions, hx]
    | some s => simp [markerPositions, hx]
  | Concat d ll mk ln l r ihl ihr =>
    intro k
    obtain ⟨hwl, hwr⟩ := wf_children hw
    obtain ⟨hin, hlf⟩ := wf_parts hw
    obtain ⟨hic, hik, him, hip⟩ := invR_parts hin
    obtain ⟨h1, h2, h3, h4, h5, h6⟩ := cacheWF_parts hic
    obtain ⟨g1, g2, g3, g4⟩ := countsComplete_parts him
    have hwfl : l.cacheWF = true := h5
    have hwfr : r.cacheWF = true := h6
    have hlenl : (l.markerPositions m).length = l.marker_count m :=
      markerPositions_length h5 g3 m
    have hlenr : (r.markerPositions m).length = r.marker_count m :=
      markerPositions_length h6 g4 m
    rw [index_for_nth_marker]
    cases hk : alookup mk m with
    | none =>
      have hl0 := count_zero_of_cache_none g1 hk
      have hr0 := count_zero_of_cache_none g2 hk
      have hln : l.markerPositions m = [] :=
        List.length_eq_zero.1 (by rw [hlenl, hl0])
      have hrn : r.markerPositions m = [] :=
        List.length_eq_zero.1 (by rw [hlenr, hr0])
      simp [markerPositions, hln, hrn]
    | some c =>
      obtain ⟨hc1, hc2⟩ := h4 _ (alookup_mem hk)
      simp only at hc1 hc2
      show (if k < c.1 then l.index_for_nth_marker m k
        else if k < c.2 then
          Option.map (fun i => ll + i) (r.index_for_nth_marker m (k - c.1))
        else none) = ((Concat d ll mk ln l r).markerPositions m).get? k
      by_cases hk1 : k < c.1
      · rw [if_pos hk1, ihl hwl k]
        have hkl : k < (l.markerPositions m).length := by
          rw [hlenl]
          omega
        rw [show (Concat d ll mk ln l r).markerPositions m =
          l.markerPositions m ++
            (r.markerPositions m).map (fun i => ll + i) from rfl,
          List.get?_append hkl]
      · rw [if_neg hk1]
        have hge : (l.markerPositions m).length ≤ k := by
          rw [hlenl]
          omega
        rw [show (Concat d ll mk ln l r).markerPositions m =
          l.markerPositions m ++
            (r.markerPositions m).map (fun i => ll + i) from rfl,
          List.get?_append_right hge, List.get?_map, hlenl, ← hc1]
        by_cases hk2 : k < c.2
        · rw [if_pos hk2, ihr hwr (k - c.1)]
        · rw [if_neg hk2]
          have : (r.markerPositions m).length ≤ k - c.1 := by
            rw [hlenr]
            omega
          rw [eq_comm, Option.map_eq_none', List.get?_eq_none]
          exact this

/-- `Node::at` returns exactly the `i`-th element of the flattened sequence
(as an `Option`, with `none` for the out-of-bounds panic). -/
theorem at_idx_spec {n : Node T M} (hc : n.cacheWF = true) :
    ∀ i, n.at_idx i = n.toList.get? i := by
  induction n with
  | Flat data mk =>
    intro i
    rw [at_idx]
    simp only [len, toList]
    by_cases hb : data.length ≤ i
    · rw [if_pos hb, eq_comm, List.get?_eq_none]
      exact hb
    · rw [if_neg hb]
  | Concat d ll mk ln l r ihl ihr =>
    intro i
    obtain ⟨h1, h2, h3, h4, h5, h6⟩ := cacheWF_parts hc
    have hll : l.toList.length = l.len := len_toList h5
    have hlr : r.toList.length = r.len := len_toList h6
    rw [at_idx]
    simp only [len, toList]
    by_cases hb : ln ≤ i
    · rw [if_pos hb, eq_comm, List.get?_eq_none, List.length_append, hll, hlr]
      omega
    · rw [if_neg hb]
      show (if i < ll then l.at_idx i else r.at_idx (i - ll)) = _
      by_cases hi : i < ll
      · rw [if_pos hi, ihl h5 i, List.get?_append (by rw [hll]; omega)]
      · rw [if_neg hi, ihr h6 (i - ll),
          List.get?_append_right (by rw [hll]; omega), hll, ← h2]

/-- Under the positivity invariant, a marker whose count is zero is absent
from `marker_counts()` (the map omits it rather than storing a zero). -/
theorem marker_counts_none_of_zero {n : Node T M} (hp : n.posCounts = true)
    {m : M} (h0 : n.marker_count m = 0) : alookup n.marker_counts m = none := by
  cases hx : alookup n.marker_counts m with
  | none => rfl
  | some c =>
    have hpos := marker_counts_pos hp _ (alookup_mem hx)
    unfold marker_count at h0
    rw [hx] at h0
    simp only [Option.getD_some] at h0
    simp only at hpos
    omega

theorem markerPositions_sorted {n : Node T M} (hw : n.wf = true) (m : M) :
    (n.markerPositions m).Pairwise (· < ·) := by
  induction n with
  | Flat data mk =>
    simp only [markerPositions]
    cases hx : alookup mk m with
    | none => simp
    | some s =>
      simp only [Option.getD_some]
      exact (leafWF_flat (wf_parts hw).2 _ (alookup_mem hx)).2.1
  | Concat d ll mk ln l r ihl ihr =>
    obtain ⟨hwl, hwr⟩ := wf_children hw
    obtain ⟨h1, h2, _, _, _, _⟩ :=
      cacheWF_parts ((invR_parts (wf_parts hw).1).1)
    simp only [markerPositions]
    rw [List.pairwise_append]
    refine ⟨ihl hwl, ?_, ?_⟩
    · rw [List.pairwise_map]
      exact (ihr hwr).imp (fun hab => by omega)
    · intro a ha b hb
      simp only [List.mem_map] at hb
      obtain ⟨q, hq, hqb⟩ := hb
      have hal := markerPositions_bounded hwl m a ha
      omega

end Node

/-! ## The claims -/

section Claims

variable {T M : Type} [DecidableEq M]

/-- C1: for all ropes `a`, `b`, `Rope::concat(a, b)` produces a rope with
`concat(a,b).len() == a.len() + b.len()` whose iteration yields `a`'s
elements followed by `b`'s elements, in order.  The embedding is purely
functional, mirroring the persistent structure: `a` and `b` are unchanged
values that keep representing their original sequences. -/
theorem c1_concat_len_and_iter (a b : Rope T M) :
    (Rope.concat a b).len = a.len + b.len ∧
    (Rope.concat a b).iterList = a.iterList ++ b.iterList := by
  constructor
  · rfl
  · rw [iterList_eq_toList, iterList_eq_toList, iterList_eq_toList]
    rfl

/-- C2, evaluated at the failing input: with
`r = concat(Rope::new(&[10]), Rope::new(&[20, 30]))` (`r.len() == 3`), the
call `r.slice(2, 3)` succeeds but returns the rope `[20, 30]` of length `2`
— not the claimed one-element rope `[30]` of length `end - start = 1` —
because `Node::slice` recurses into a right child with
`slice(0, end - left_len)` instead of `slice(start - left_len, end -
left_len)`.  For comparison, `r[2] == 30` as the claim requires of
`slice(2,3)[0]`. -/
theorem c2_slice_right_bug_eval :
    (Rope.slice (Rope.concat (Rope.new (M := Nat) [10]) (Rope.new [20, 30]))
        2 3).map (fun s => (s.len, s.root.toList)) = some (2, [20, 30]) ∧
    (Rope.concat (Rope.new (M := Nat) [10]) (Rope.new [20, 30])).at_idx 2 =
      some 30 := by
  constructor <;> rfl

/-- C3, evaluated at the failing input: for
`r = concat(Rope::new(&[10]), Rope::new(&[20, 30]))` and `i = 2`,
`concat(r.slice(0, 2), r.slice(2, 3))` iterates as `[10, 20, 20, 30]`, not
as `r`'s sequence `[10, 20, 30]` — the split/rejoin identity fails because
of the `slice` right-recursion bug exhibited in the C2 evaluation. -/
theorem c3_split_rejoin_bug_eval :
    (Rope.slice (Rope.concat (Rope.new (M := Nat) [10]) (Rope.new [20, 30]))
        0 2).isSome = true ∧
    (Rope.slice (Rope.concat (Rope.new (M := Nat) [10]) (Rope.new [20, 30]))
        2 3).isSome = true ∧
    (Rope.concat
      ((Rope.slice (Rope.concat (Rope.new (M := Nat) [10])
        (Rope.new [20, 30])) 0 2).getD (Rope.new []))
      ((Rope.slice (Rope.concat (Rope.new (M := Nat) [10])
        (Rope.new [20, 30])) 2 3).getD (Rope.new []))).iterList
      = [10, 20, 20, 30] ∧
    (Rope.concat (Rope.new (M := Nat) [10]) (Rope.new [20, 30])).iterList
      = [10, 20, 30] := by
  refine ⟨rfl, rfl, ?_, ?_⟩ <;> rw [iterList_eq_toList] <;> rfl

/-- C4 counterexample: at the internal node `concat(new [1,2], new [3])`
(`left_len = 2`), slicing `[0, 2)` has `end = left_len ≤ left_len`, yet the
code does not recurse into the left child only: the claim's branch would
return the leaf `Flat [1,2]`, while the code takes the straddling branch
(its test is `end >= left_len`, not `>`) and allocates a fresh internal node
with a degenerate empty right leaf. -/
theorem c4_counterexample :
    ((Rope.concat (Rope.new (M := Nat) [1, 2])
        (Rope.new [3])).root.slice 0 2).isConcatB = true ∧
    (((Rope.new (M := Nat) [1, 2]) : Rope Nat Nat).root.slice 0 2).isConcatB
        = false ∧
    (Rope.concat (Rope.new (M := Nat) [1, 2]) (Rope.new [3])).root.slice 0 2
      ≠ ((Rope.new (M := Nat) [1, 2]) : Rope Nat Nat).root.slice 0 2 := by
  refine ⟨rfl, rfl, fun heq => ?_⟩
  have h1 : ((Rope.concat (Rope.new (M := Nat) [1, 2])
      (Rope.new [3])).root.slice 0 2).isConcatB = true := rfl
  rw [heq] at h1
  exact absurd h1 (by decide)

/-- C4 as amended: at an internal node, when `end < left_len` the result is
obtained by recursing into the left child only, with the right child
discarded and no fresh internal node allocated at that level; when
`start ≥ left_len ≤ end` the code recurses right only (into
`[0, end - left_len)`); and a fresh internal node is allocated at a level
exactly in the straddling case `start < left_len` and `end ≥ left_len`
(with `≥`, not the claimed strict `>`). -/
theorem c4_amended_slice_branches (d ll : Nat) (mk : List (M × Nat × Nat))
    (ln : Nat) (l r : Node T M) (s e : Nat) :
    (s ≤ e → e < ll → (Node.Concat d ll mk ln l r).slice s e = l.slice s e) ∧
    (s < ll → ll ≤ e → (Node.Concat d ll mk ln l r).slice s e =
      Node.concat (l.slice s ll) (r.slice 0 (e - ll))) ∧
    (ll ≤ s → ll ≤ e → (Node.Concat d ll mk ln l r).slice s e =
      r.slice 0 (e - ll)) := by
  refine ⟨?_, ?_, ?_⟩
  · intro hse he
    rw [Node.slice, if_neg (by omega), if_pos (by omega)]
  · intro hs he
    rw [Node.slice, if_pos ⟨hs, he⟩]
  · intro hs he
    rw [Node.slice, if_neg (by omega), if_neg (by omega), if_pos he]

theorem c4_amended_slice_branches_witness :
    ((Node.Concat 1 2 ([] : List (Nat × Nat × Nat)) 3 (Node.Flat [1, 2] [])
        (Node.Flat [3] [])).slice 0 1 = (Node.Flat [1, 2] []).slice 0 1) ∧
    ((Node.Concat 1 2 ([] : List (Nat × Nat × Nat)) 3 (Node.Flat [1, 2] [])
        (Node.Flat [3] [])).slice 1 3 =
      Node.concat ((Node.Flat [1, 2] []).slice 1 2)
        ((Node.Flat [3] []).slice 0 1)) ∧
    ((Node.Concat 1 2 ([] : List (Nat × Nat × Nat)) 3 (Node.Flat [1, 2] [])
        (Node.Flat [3] [])).slice 2 3 = (Node.Flat [3] []).slice 0 1) :=
  ⟨(c4_amended_slice_branches 1 2 [] 3 _ _ 0 1).1 (by decide) (by decide),
   (c4_amended_slice_branches 1 2 [] 3 _ _ 1 3).2.1 (by decide) (by decide),
   (c4_amended_slice_branches 1 2 [] 3 _ _ 2 3).2.2 (by decide) (by decide)⟩

/-- C5: `Rope::slice` fails (the `RangeError` panic, modelled as `none`)
iff `start ≥ end` or `end > r.len()`; in particular every empty range such
as `slice(3,3)` is rejected.  The embedding is purely functional: `r` is an
unchanged, valid value after a failed (or any) call. -/
theorem c5_slice_range_error (r : Rope T M) (s e : Nat) :
    Rope.slice r s e = none ↔ (e ≤ s ∨ r.len < e) := by
  unfold Rope.slice
  by_cases h : e ≤ s ∨ r.len < e
  · simp [h]
  · simp [h]

/-- C6: under the cached-metadata invariants, indexing a rope at
`i < r.len()` succeeds and returns the `i`-th element of the flattened
sequence the rope represents (the routing left for `i < left_len`, else
right with `i - left_len`, is `Node::at` as embedded in `at_idx`), and
indexing at `i ≥ r.len()` fails with the `IndexError` panic (`none`):
failure happens exactly when the bound is violated. -/
theorem c6_index_in_bounds (r : Rope T M) (h : r.root.cacheWF = true)
    (i : Nat) :
    r.at_idx i = r.iterList.get? i ∧ (r.at_idx i = none ↔ r.len ≤ i) := by
  have hs := Node.at_idx_spec h i
  have hlen := Node.len_toList h
  rw [iterList_eq_toList]
  refine ⟨hs, ?_⟩
  rw [show r.at_idx i = r.root.at_idx i from rfl, hs, List.get?_eq_none, hlen]
  exact Iff.rfl

theorem c6_index_in_bounds_witness :
    ((Rope.concat (Rope.new (M := Nat) [0, 1, 2])
        (Rope.new [3, 4])).at_idx 4 =
      (Rope.concat (Rope.new (M := Nat) [0, 1, 2])
        (Rope.new [3, 4])).iterList.get? 4) ∧
    ((Rope.concat (Rope.new (M := Nat) [0, 1, 2])
        (Rope.new [3, 4])).at_idx 4 = none ↔
      (Rope.concat (Rope.new (M := Nat) [0, 1, 2])
        (Rope.new [3, 4])).len ≤ 4) :=
  c6_index_in_bounds _ (by decide) 4

/-- The intended (spec §4.3/§4.5) behaviour of `index_for_nth_marker`,
which holds on ropes satisfying the §3 data-model invariants (`wf`:
correct cached metadata, complete summaries, and leaf offset sets that are
non-empty, strictly sorted and within the leaf's data): the result is
exactly the `n`-th absolute occurrence position, it is `none` exactly when
`n ≥ marker_count(m)`, and it is strictly increasing in `n` where defined.
`Node::slice` does not maintain the leaf-offset invariant (it keeps kept
offsets un-shifted), which is why this fails on some API-reachable ropes:
see the C7 evaluation below. -/
theorem nth_marker_spec_of_wf (r : Rope T M) (h : r.root.wf = true) (m : M)
    (n : Nat) :
    r.index_for_nth_marker m n = (r.root.markerPositions m).get? n ∧
    (r.index_for_nth_marker m n = none ↔ r.marker_count m ≤ n) ∧
    (∀ n' p p', n < n' → r.index_for_nth_marker m n = some p →
      r.index_for_nth_marker m n' = some p' → p < p') := by
  have hg := Node.index_for_nth_marker_eq_get h m
  have hin := (Node.wf_parts h).1
  obtain ⟨hc, hk, hm, hp⟩ := Node.invR_parts hin
  have hlen := Node.markerPositions_length hc hm m
  have hsorted := Node.markerPositions_sorted h m
  refine ⟨hg n, ?_, ?_⟩
  · rw [show r.index_for_nth_marker m n =
      r.root.index_for_nth_marker m n from rfl, hg n, List.get?_eq_none, hlen]
    exact Iff.rfl
  · intro n' p p' hlt h1 h2
    rw [show r.index_for_nth_marker m n =
      r.root.index_for_nth_marker m n from rfl, hg n] at h1
    rw [show r.index_for_nth_marker m n' =
      r.root.index_for_nth_marker m n' from rfl, hg n'] at h2
    obtain ⟨hb1, he1⟩ := List.get?_eq_some.1 h1
    obtain ⟨hb2, he2⟩ := List.get?_eq_some.1 h2
    rw [← he1, ← he2]
    exact List.pairwise_iff_get.1 hsorted ⟨n, hb1⟩ ⟨n', hb2⟩ hlt

/-- C7, evaluated at a failing input: the API-reachable rope
`r = concat(from_chunk([10,20,30,40], X@{1,3}).slice(2,4),
from_chunk([50], X@{0}))` has length 3 and `marker_count(X) = 2`, yet
`index_for_nth_marker(X, 0) = Some(3)` — position 3 inside a length-2 left
part, while the first occurrence of `X` actually sits at position 1 — and
`index_for_nth_marker(X, 1) = Some(2)`, so the returned positions `3, 2`
are not the absolute occurrence positions and are not strictly increasing
in `n`.  The cause: the leaf case of `Node::slice` keeps the kept marker
offsets un-shifted (it omits the `o - start` re-offsetting the spec
prescribes), so the sliced leaf `[30, 40]` stores offset `3` for `X`. -/
theorem c7_nth_marker_bug_eval :
    (Rope.slice (Rope.from_chunk
      (⟨[10, 20, 30, 40], [(1, [1, 3])]⟩ : Chunk Nat Nat)) 2 4).isSome
        = true ∧
    (Rope.concat
      ((Rope.slice (Rope.from_chunk
        (⟨[10, 20, 30, 40], [(1, [1, 3])]⟩ : Chunk Nat Nat)) 2 4).getD
          (Rope.new []))
      (Rope.from_chunk (⟨[50], [(1, [0])]⟩ : Chunk Nat Nat))).len = 3 ∧
    (Rope.concat
      ((Rope.slice (Rope.from_chunk
        (⟨[10, 20, 30, 40], [(1, [1, 3])]⟩ : Chunk Nat Nat)) 2 4).getD
          (Rope.new []))
      (Rope.from_chunk
        (⟨[50], [(1, [0])]⟩ : Chunk Nat Nat))).marker_count 1 = 2 ∧
    (Rope.concat
      ((Rope.slice (Rope.from_chunk
        (⟨[10, 20, 30, 40], [(1, [1, 3])]⟩ : Chunk Nat Nat)) 2 4).getD
          (Rope.new []))
      (Rope.from_chunk
        (⟨[50], [(1, [0])]⟩ : Chunk Nat Nat))).index_for_nth_marker 1 0
          = some 3 ∧
    (Rope.concat
      ((Rope.slice (Rope.from_chunk
        (⟨[10, 20, 30, 40], [(1, [1, 3])]⟩ : Chunk Nat Nat)) 2 4).getD
          (Rope.new []))
      (Rope.from_chunk
        (⟨[50], [(1, [0])]⟩ : Chunk Nat Nat))).index_for_nth_marker 1 1
          = some 2 ∧
    Reachable (Rope.concat
      ((Rope.slice (Rope.from_chunk
        (⟨[10, 20, 30, 40], [(1, [1, 3])]⟩ : Chunk Nat Nat)) 2 4).getD
          (Rope.new []))
      (Rope.from_chunk (⟨[50], [(1, [0])]⟩ : Chunk Nat Nat))).root := by
  refine ⟨rfl, rfl, rfl, rfl, rfl, ?_⟩
  exact Reachable.concat_
    (Reachable.slice_ 2 4 (Reachable.from_chunk
      (⟨[10, 20, 30, 40], [(1, [1, 3])]⟩ : Chunk Nat Nat) (by decide)))
    (Reachable.from_chunk (⟨[50], [(1, [0])]⟩ : Chunk Nat Nat) (by decide))

/-- C8: every rope reachable through the public API (construction from
data or a chunk, `concat`, `slice`, bulk loading) satisfies the
cached-metadata invariants at every internal node:
`len == left.len() + right.len()`, `left_len == left.len()`,
`depth == max(left.depth(), right.depth()) + 1` (leaf depth 0), and every
marker `m` present in a summary has `left_count == left.marker_count(m)`
and `total_count == left_count + right.marker_count(m)` — `cacheWF` states
exactly these conditions recursively. -/
theorem c8_cache_invariants {n : Node T M} (h : Reachable n) :
    n.cacheWF = true :=
  (Node.invR_parts (reachable_invR h)).1

theorem c8_cache_invariants_witness :
    (Node.concat (Node.Flat [1, 2] []) (Node.Flat [3] [])
      : Node Nat Nat).cacheWF = true :=
  c8_cache_invariants
    (Reachable.concat_ (Reachable.new_ [1, 2]) (Reachable.new_ [3]))

/-- C9: when the chunk source yields a finite non-empty sequence of chunks
terminated by the end signal, the bulk loader returns a rope whose
flattened iteration equals the concatenation of the chunks' data in yield
order, and whose count for each marker equals the sum of that marker's
occurrence counts over all chunks. -/
theorem c9_from_chunks (cs : List (Chunk T M)) (hne : cs ≠ [])
    (hok : ∀ c ∈ cs, chunkOK c = true) :
    ∃ r, Rope.from_chunks cs = some r ∧
      r.iterList = (cs.map Chunk.data).join ∧
      ∀ m, r.marker_count m = (cs.map (fun c => c.count m)).sum := by
  obtain ⟨r, h1, _, h3, h4⟩ := from_chunks_spec cs hne hok
  refine ⟨r, h1, ?_, h4⟩
  rw [iterList_eq_toList]
  exact h3

theorem c9_from_chunks_witness :
    ∃ r, Rope.from_chunks (T := Nat) (M := Nat)
        [⟨[1, 2], [(5, [0])]⟩, ⟨[3], []⟩, ⟨[4, 5], [(5, [1])]⟩] = some r ∧
      r.iterList = ([[1, 2], [3], [4, 5]].map id).join ∧
      ∀ m, r.marker_count m =
        ([⟨[1, 2], [(5, [0])]⟩, ⟨[3], []⟩,
          (⟨[4, 5], [(5, [1])]⟩ : Chunk Nat Nat)].map
            (fun c => c.count m)).sum := by
  obtain ⟨r, h1, h2, h3⟩ := c9_from_chunks
    [⟨[1, 2], [(5, [0])]⟩, ⟨[3], []⟩, ⟨[4, 5], [(5, [1])]⟩]
    (List.cons_ne_nil _ _) (by decide)
  exact ⟨r, h1, by simpa using h2, h3⟩

/-- C10: for an API-reachable rope and a marker `m` with no occurrence
anywhere in it (for instance any marker over a rope built from unmarked
data), `marker_count(m)` returns `0` — rather than failing or returning an
absent/error value — even though `marker_counts()` omits `m` from its map. -/
theorem c10_absent_marker_count (r : Rope T M) (h : Reachable r.root) (m : M)
    (h0 : r.root.occurrences m = 0) :
    r.marker_count m = 0 ∧ alookup r.marker_counts m = none := by
  have hi := reachable_invR h
  obtain ⟨hc, hk, hm, hp⟩ := Node.invR_parts hi
  have hz : r.root.marker_count m = 0 := by
    rw [Node.marker_count_eq_occurrences hc hm m, h0]
  exact ⟨hz, Node.marker_counts_none_of_zero hp hz⟩

theorem c10_absent_marker_count_witness :
    (Rope.new (M := Nat) [1, 2, 3]).marker_count 7 = 0 ∧
    alookup (Rope.new (M := Nat) [1, 2, 3]).marker_counts 7 = none :=
  c10_absent_marker_count _ (Reachable.new_ [1, 2, 3]) 7 rfl

end Claims

end PersistentRope
